import Mathlib

/-!
Verification of the `FrequencyGenerator` module (Timer-4 square-wave
generator for the ATmega32U4).  The definitions below are a shallow
embedding of `FrequencyGenerator.cpp`: the divisor search in
`FrequencyGenerator::set`, the stored `_FreqGenVal` state, and the
`read` accessor.  All C `long` arithmetic in the search stays within
32-bit signed range for every candidate that passes the range checks,
so the embedding uses `Nat`/`Int` directly; C truncating division on
nonnegative operands is `Nat` division, and the one signed division
(the error normalization) is modelled with `Int.tdiv`, which has C's
truncate-toward-zero semantics.
-/

namespace FrequencyGenerator

/-- Crystal/CPU base frequency.  `F_CPU` is supplied by the Arduino build
for the Pro Micro target; the module documentation and spec fix it at
16 MHz. -/
def F_CPU : Nat := 16000000

/-- Clock PLL multipliers, from `static byte CKM[]={1,6,4,3}` (16, 96, 64,
48 MHz). -/
def CKM : List Nat := [1, 6, 4, 3]

/-- The initial value of `svDIF` (`0x7FFFFFFFL`), acting as "no candidate
found yet". -/
def INITDIF : Nat := 0x7FFFFFFF

/-- Fuelled version of the halving loop
`while (CV > 1) { lg++; CV=CV>>1; }`: counts the halving steps.  The
fuel is only there to make the recursion structural; `cv` halves each
step, so fuel `cv` is always enough. -/
def lgLoopF : Nat → Nat → Nat
  | 0, _ => 0
  | fuel+1, cv => if 1 < cv then lgLoopF fuel (cv / 2) + 1 else 0

/-- The `lg` computation of the source: `lg=0; if (CV != 0) { while (CV > 1)
{ lg++; CV=CV>>1; } lg++; }`. -/
def lgFn (cv : Nat) : Nat := if cv = 0 then 0 else lgLoopF cv cv + 1

/-- `CK=F_CPU*CKM[pll]` — the candidate base clock for pll index `p`. -/
def CKof (p : Nat) : Nat := F_CPU * CKM.getD p 0

/-- `CV=CK / Freq / 1024` — the unscaled divisor estimate. -/
def CVof (f p : Nat) : Nat := CKof p / f / 1024

/-- The prescaler shift `lg` computed for target `f` and pll index `p`. -/
def lgOf (f p : Nat) : Nat := lgFn (CVof f p)

/-- `PS=1<<lg` — the prescaler value. -/
def PSof (f p : Nat) : Nat := 2 ^ lgOf f p

/-- `cnt=((CK*2/PS/Freq)+1)/2` — the reload count, round-half-up. -/
def cntOf (f p : Nat) : Nat := (CKof p * 2 / PSof f p / f + 1) / 2

/-- `dif=(CK - ((long)PS*(long)cnt*Freq)); dif=dif/((long)CKM[pll]);
if (dif<0) dif=-dif;` — the normalized error score.  `Int.tdiv` is C's
truncating `/`; the final result is the absolute value. -/
def difOf (f p : Nat) : Nat :=
  (Int.tdiv ((CKof p : Int) - (PSof f p : Int) * (cntOf f p : Int) * (f : Int))
    (CKM.getD p 0 : Int)).natAbs

/-- One candidate configuration: the loop-local values saved by
`svPLL=pll; svLG=lg; svCNT=cnt; svDIF=dif`. -/
structure Cand where
  pll : Nat
  lg : Nat
  cnt : Nat
  dif : Nat
deriving DecidableEq

/-- One iteration body of the search loop for pll index `p`: `none` when the
iteration hits a `continue` (`pll==1 || lg > 14`, or `cnt<4 || cnt>0x3FF`),
otherwise the candidate it produces. -/
def evalPll (f p : Nat) : Option Cand :=
  if p = 1 ∨ 14 < lgOf f p then none
  else if cntOf f p < 4 ∨ 0x3FF < cntOf f p then none
  else some ⟨p, lgOf f p, cntOf f p, difOf f p⟩

/-- The best-so-far before the loop starts: `svPLL=0, svLG=0, svCNT=0,
svDIF=0x7FFFFFFF`. -/
def initBest : Cand := ⟨0, 0, 0, INITDIF⟩

/-- One loop iteration acting on the best-so-far: replace it exactly on
strict improvement (`if (dif<svDIF) { svPLL=pll; svLG=lg; svCNT=cnt;
svDIF=dif; }`). -/
def step (f : Nat) (b : Cand) (p : Nat) : Cand :=
  match evalPll f p with
  | none => b
  | some c => if c.dif < b.dif then c else b

/-- The whole `for (pll=0; pll<sizeof(CKM); pll++)` search. -/
def search (f : Nat) : Cand := (List.range 4).foldl (step f) initBest

/-- `_FreqGenVal=((((F_CPU*CKM[svPLL])*2)/((long)(1<<svLG)*(long)svCNT))+1)/2`
— the round-half-up actual output frequency of the winning configuration. -/
def actualOf (b : Cand) : Nat :=
  (F_CPU * CKM.getD b.pll 0 * 2 / (2 ^ b.lg * b.cnt) + 1) / 2

/-- Result of one `set` call: the returned value, the new `_FreqGenVal`,
and the configuration written to the timer registers (`none` when the pin
is released / nothing is programmed). -/
structure SetOut where
  ret : Int
  val : Int
  applied : Option Cand
deriving DecidableEq

/-- `FrequencyGenerator::set`, as a function of the stored `_FreqGenVal`
`st` and the argument `Freq`. -/
def set (st Freq : Int) : SetOut :=
  if Freq < 0 then ⟨st, st, none⟩
  else if Freq = 0 then ⟨0, 0, none⟩
  else if (search Freq.toNat).dif < INITDIF then
    ⟨(actualOf (search Freq.toNat) : Int), (actualOf (search Freq.toNat) : Int),
      some (search Freq.toNat)⟩
  else ⟨-1, st, none⟩

/-- `FrequencyGenerator::read`: returns the stored `_FreqGenVal`. -/
def read (st : Int) : Int := st

/-- The in-class initializer `long _FreqGenVal=0`. -/
def initVal : Int := 0

/-! ### Basic characterizations -/

theorem CKM_getD_le (p : Nat) : CKM.getD p 0 ≤ 6 := by
  match p with
  | 0 | 1 | 2 | 3 => decide
  | n+4 => simp [CKM, List.getD]

theorem evalPll_eq_some_iff {f p : Nat} {c : Cand} :
    evalPll f p = some c ↔
      p ≠ 1 ∧ lgOf f p ≤ 14 ∧ 4 ≤ cntOf f p ∧ cntOf f p ≤ 1023 ∧
        c = ⟨p, lgOf f p, cntOf f p, difOf f p⟩ := by
  unfold evalPll
  split_ifs with h1 h2
  · constructor
    · intro h; cases h
    · rintro ⟨hp, hlg, -⟩
      rcases h1 with h | h
      · exact absurd h hp
      · omega
  · constructor
    · intro h; cases h
    · rintro ⟨-, -, h4, h10, -⟩
      rcases h2 with h | h <;> omega
  · push_neg at h1 h2
    constructor
    · intro h
      injection h with h
      exact ⟨h1.1, by omega, by omega, by omega, h.symm⟩
    · rintro ⟨-, -, -, -, rfl⟩
      rfl

theorem evalPll_pll {f p : Nat} {c : Cand} (h : evalPll f p = some c) :
    c.pll = p := by
  rcases evalPll_eq_some_iff.mp h with ⟨-, -, -, -, rfl⟩
  rfl

theorem evalPll_exclude (f : Nat) : evalPll f 1 = none := by
  unfold evalPll
  simp

theorem evalPll_isSome_iff {f p : Nat} :
    (evalPll f p).isSome ↔
      p ≠ 1 ∧ lgOf f p ≤ 14 ∧ 4 ≤ cntOf f p ∧ cntOf f p ≤ 1023 := by
  constructor
  · intro h
    rcases Option.isSome_iff_exists.mp h with ⟨c, hc⟩
    rcases evalPll_eq_some_iff.mp hc with ⟨h1, h2, h3, h4, -⟩
    exact ⟨h1, h2, h3, h4⟩
  · rintro ⟨h1, h2, h3, h4⟩
    have : evalPll f p = some ⟨p, lgOf f p, cntOf f p, difOf f p⟩ :=
      evalPll_eq_some_iff.mpr ⟨h1, h2, h3, h4, rfl⟩
    rw [this]
    rfl

/-! ### The error score of any accepted candidate is below `INITDIF`

All quantities fit comfortably in 32 bits: for any candidate passing the
`cnt` range check, `PS*cnt*Freq ≤ 8/7 · CK ≤ 110 MHz`, so the saved error
is far below `0x7FFFFFFF` and every accepted candidate strictly improves
on the initial best-so-far. -/

theorem difOf_lt_INITDIF {f p : Nat} (h4 : 4 ≤ cntOf f p)
    (h10 : cntOf f p ≤ 1023) : difOf f p < INITDIF := by
  have hm : 0 < CKM.getD p 0 := by
    by_contra hm
    have hm0 : CKM.getD p 0 = 0 := by omega
    have : cntOf f p = 0 := by
      unfold cntOf CKof
      rw [hm0]
      simp
    omega
  have hf : 0 < f := by
    by_contra hf
    have hf0 : f = 0 := by omega
    have : cntOf f p = 0 := by
      unfold cntOf
      rw [hf0]
      simp
    omega
  have hCK : CKof p ≤ 96000000 := by
    have h6 := CKM_getD_le p
    unfold CKof F_CPU
    omega
  have hq7 : 7 ≤ CKof p * 2 / PSof f p / f := by
    unfold cntOf at h4
    omega
  have h7f : 7 * f ≤ CKof p * 2 / PSof f p :=
    (Nat.le_div_iff_mul_le hf).mp hq7
  have h7fPS : 7 * f * PSof f p ≤ CKof p * 2 :=
    le_trans (Nat.mul_le_mul_right (PSof f p) h7f) (Nat.div_mul_le_self _ _)
  have hqf : (CKof p * 2 / PSof f p / f) * f ≤ CKof p * 2 / PSof f p :=
    Nat.div_mul_le_self _ _
  have hqfPS : (CKof p * 2 / PSof f p / f) * f * PSof f p ≤ CKof p * 2 :=
    le_trans (Nat.mul_le_mul_right (PSof f p) hqf) (Nat.div_mul_le_self _ _)
  have h2cnt : 2 * cntOf f p ≤ CKof p * 2 / PSof f p / f + 1 := by
    unfold cntOf
    omega
  have h2X : 2 * (PSof f p * cntOf f p * f) ≤
      (CKof p * 2 / PSof f p / f) * f * PSof f p + f * PSof f p := by
    have := Nat.mul_le_mul_right (f * PSof f p) h2cnt
    calc 2 * (PSof f p * cntOf f p * f)
        = 2 * cntOf f p * (f * PSof f p) := by ring
      _ ≤ (CKof p * 2 / PSof f p / f + 1) * (f * PSof f p) := this
      _ = (CKof p * 2 / PSof f p / f) * f * PSof f p + f * PSof f p := by ring
  have hXbound : 14 * (PSof f p * cntOf f p * f) ≤ 16 * CKof p := by
    have h7fPS' : f * PSof f p * 7 ≤ CKof p * 2 := by
      calc f * PSof f p * 7 = 7 * f * PSof f p := by ring
        _ ≤ CKof p * 2 := h7fPS
    omega
  have habs : ((CKof p : Int) - (PSof f p : Int) * (cntOf f p : Int) * (f : Int)).natAbs
      ≤ CKof p + PSof f p * cntOf f p * f := by
    have hcast : (PSof f p : Int) * (cntOf f p : Int) * (f : Int)
        = ((PSof f p * cntOf f p * f : Nat) : Int) := by
      push_cast
      ring
    rw [hcast]
    omega
  have hdiv : difOf f p ≤
      ((CKof p : Int) - (PSof f p : Int) * (cntOf f p : Int) * (f : Int)).natAbs := by
    unfold difOf
    rw [Int.natAbs_tdiv]
    exact Nat.div_le_self _ _
  unfold INITDIF
  omega

/-! ### The halving loop computes the ceiling base-2 logarithm -/

theorem lgLoopF_fuel {cv : Nat} : ∀ {fuel fuel' : Nat}, cv ≤ fuel → cv ≤ fuel' →
    lgLoopF fuel cv = lgLoopF fuel' cv := by
  induction cv using Nat.strong_induction_on with
  | _ cv ih =>
    intro fuel fuel' hle hle'
    match fuel, fuel' with
    | 0, 0 => rfl
    | 0, b+1 =>
      have : cv = 0 := by omega
      subst this
      simp [lgLoopF]
    | a+1, 0 =>
      have : cv = 0 := by omega
      subst this
      simp [lgLoopF]
    | a+1, b+1 =>
      show (if 1 < cv then lgLoopF a (cv / 2) + 1 else 0)
          = (if 1 < cv then lgLoopF b (cv / 2) + 1 else 0)
      by_cases h : 1 < cv
      · rw [if_pos h, if_pos h, @ih (cv / 2) (by omega) a b (by omega) (by omega)]
      · rw [if_neg h, if_neg h]

theorem lgFn_eq_clog (cv : Nat) : lgFn cv = Nat.clog 2 (cv + 1) := by
  induction cv using Nat.strong_induction_on with
  | _ cv ih =>
    match cv with
    | 0 => simp [lgFn, Nat.clog_one_right]
    | 1 =>
      have h2 : Nat.clog 2 2 = 1 := by
        rw [Nat.clog_of_two_le (by norm_num) (by norm_num)]
        norm_num [Nat.clog_one_right]
      simp [lgFn, lgLoopF, h2]
    | n+2 =>
      have hcv2 : (n+2) / 2 < n + 2 := by omega
      have hpos : 0 < (n+2) / 2 := by omega
      have hstep : lgFn (n+2) = lgFn ((n+2) / 2) + 1 := by
        unfold lgFn
        rw [if_neg (by omega), if_neg (by omega)]
        show lgLoopF (n+2) (n+2) + 1 = lgLoopF ((n+2)/2) ((n+2)/2) + 1 + 1
        show (if 1 < n+2 then lgLoopF (n+1) ((n+2) / 2) + 1 else 0) + 1
            = lgLoopF ((n+2)/2) ((n+2)/2) + 1 + 1
        rw [if_pos (by omega),
          @lgLoopF_fuel ((n+2)/2) (n+1) ((n+2)/2) (by omega) (le_refl _)]
      rw [hstep, ih ((n+2)/2) hcv2]
      have hclog : Nat.clog 2 (n+2+1) = Nat.clog 2 ((n+2)/2 + 1) + 1 := by
        rw [Nat.clog_of_two_le (by norm_num) (by omega)]
        congr 2
        omega
      omega

/-! ### The search loop invariant

After the iterations for pll indices `0..n-1`, the best-so-far `b`
satisfies: it is no worse than any candidate seen so far; if it was ever
replaced it is itself the candidate of its own index; it is the candidate
of the *earliest* index attaining its error; and if it was never replaced
it is still the initial record. -/

def Inv (f n : Nat) (b : Cand) : Prop :=
  (∀ p, p < n → ∀ c, evalPll f p = some c → b.dif ≤ c.dif) ∧
  (b.dif < INITDIF → b.pll < n ∧ evalPll f b.pll = some b) ∧
  (∀ p, p < n → ∀ c, evalPll f p = some c → c.dif = b.dif → b.pll ≤ p) ∧
  (¬ b.dif < INITDIF → b = initBest)

theorem inv_zero (f : Nat) : Inv f 0 initBest := by
  refine ⟨?_, ?_, ?_, fun _ => rfl⟩
  · intro p hp
    exact absurd hp (Nat.not_lt_zero p)
  · intro hd
    exact absurd hd (by simp [initBest])
  · intro p hp
    exact absurd hp (Nat.not_lt_zero p)

theorem inv_step {f n : Nat} {b : Cand} (h : Inv f n b) :
    Inv f (n+1) (step f b n) := by
  obtain ⟨hA, hB, hC, hE⟩ := h
  unfold step
  cases hev : evalPll f n with
  | none =>
    show Inv f (n+1) b
    refine ⟨?_, ?_, ?_, hE⟩
    · intro p hp c hc
      rcases Nat.lt_succ_iff_lt_or_eq.mp hp with h' | rfl
      · exact hA p h' c hc
      · rw [hev] at hc
        cases hc
    · intro hd
      obtain ⟨h1, h2⟩ := hB hd
      exact ⟨by omega, h2⟩
    · intro p hp c hc hd
      rcases Nat.lt_succ_iff_lt_or_eq.mp hp with h' | rfl
      · exact hC p h' c hc hd
      · rw [hev] at hc
        cases hc
  | some c =>
    show Inv f (n+1) (if c.dif < b.dif then c else b)
    have hcd : c.dif < INITDIF := by
      rcases evalPll_eq_some_iff.mp hev with ⟨-, -, h4, h10, rfl⟩
      exact difOf_lt_INITDIF h4 h10
    have hpll : c.pll = n := evalPll_pll hev
    by_cases hlt : c.dif < b.dif
    · rw [if_pos hlt]
      refine ⟨?_, ?_, ?_, ?_⟩
      · intro p hp d hd
        rcases Nat.lt_succ_iff_lt_or_eq.mp hp with h' | rfl
        · exact le_trans (le_of_lt hlt) (hA p h' d hd)
        · rw [hev] at hd
          injection hd with hd
          rw [hd]
      · intro _
        exact ⟨by omega, by rw [hpll]; exact hev⟩
      · intro p hp d hd hde
        rcases Nat.lt_succ_iff_lt_or_eq.mp hp with h' | rfl
        · have := hA p h' d hd
          omega
        · rw [hpll]
      · intro hnd
        exact absurd hcd hnd
    · rw [if_neg hlt]
      refine ⟨?_, ?_, ?_, hE⟩
      · intro p hp d hd
        rcases Nat.lt_succ_iff_lt_or_eq.mp hp with h' | rfl
        · exact hA p h' d hd
        · rw [hev] at hd
          injection hd with hd
          rw [← hd]
          omega
      · intro hd
        obtain ⟨h1, h2⟩ := hB hd
        exact ⟨by omega, h2⟩
      · intro p hp d hd hde
        rcases Nat.lt_succ_iff_lt_or_eq.mp hp with h' | rfl
        · exact hC p h' d hd hde
        · by_cases hbd : b.dif < INITDIF
          · have := (hB hbd).1
            omega
          · rw [hE hbd]
            exact Nat.zero_le _

theorem search_inv (f : Nat) : Inv f 4 (search f) := by
  have h : search f = step f (step f (step f (step f initBest 0) 1) 2) 3 := rfl
  rw [h]
  exact inv_step (inv_step (inv_step (inv_step (inv_zero f))))

theorem search_min {f : Nat} (p : Nat) (hp : p < 4) {c : Cand}
    (hc : evalPll f p = some c) : (search f).dif ≤ c.dif :=
  (search_inv f).1 p hp c hc

theorem search_self {f : Nat} (h : (search f).dif < INITDIF) :
    (search f).pll < 4 ∧ evalPll f (search f).pll = some (search f) :=
  (search_inv f).2.1 h

theorem search_tie {f : Nat} (p : Nat) (hp : p < 4) {c : Cand}
    (hc : evalPll f p = some c) (hd : c.dif = (search f).dif) :
    (search f).pll ≤ p :=
  (search_inv f).2.2.1 p hp c hc hd

theorem search_none {f : Nat} (h : ∀ p, p < 4 → evalPll f p = none) :
    ¬ (search f).dif < INITDIF := by
  intro hd
  obtain ⟨h1, h2⟩ := search_self hd
  rw [h _ h1] at h2
  cases h2

theorem search_found {f : Nat} (p : Nat) (hp : p < 4) {c : Cand}
    (hc : evalPll f p = some c) : (search f).dif < INITDIF := by
  have h1 := search_min p hp hc
  have h2 : c.dif < INITDIF := by
    rcases evalPll_eq_some_iff.mp hc with ⟨-, -, h4, h10, rfl⟩
    exact difOf_lt_INITDIF h4 h10
  omega

/-! ### Unfolding lemmas for `set` -/

theorem set_neg {st Freq : Int} (h : Freq < 0) : set st Freq = ⟨st, st, none⟩ := by
  unfold set
  rw [if_pos h]

theorem set_zero (st : Int) : set st 0 = ⟨0, 0, none⟩ := by
  unfold set
  norm_num

theorem set_pos_hit {st Freq : Int} (hF : 0 < Freq)
    (hd : (search Freq.toNat).dif < INITDIF) :
    set st Freq = ⟨(actualOf (search Freq.toNat) : Int),
      (actualOf (search Freq.toNat) : Int), some (search Freq.toNat)⟩ := by
  unfold set
  rw [if_neg (by omega), if_neg (by omega), if_pos hd]

theorem set_pos_miss {st Freq : Int} (hF : 0 < Freq)
    (hd : ¬ (search Freq.toNat).dif < INITDIF) :
    set st Freq = ⟨-1, st, none⟩ := by
  unfold set
  rw [if_neg (by omega), if_neg (by omega), if_neg hd]

theorem applied_inv {st Freq : Int} {c : Cand}
    (h : (set st Freq).applied = some c) :
    0 < Freq ∧ (search Freq.toNat).dif < INITDIF ∧ c = search Freq.toNat := by
  by_cases h1 : Freq < 0
  · rw [set_neg h1] at h
    exact Option.noConfusion h
  by_cases h2 : Freq = 0
  · subst h2
    rw [set_zero] at h
    exact Option.noConfusion h
  by_cases hd : (search Freq.toNat).dif < INITDIF
  · rw [set_pos_hit (by omega) hd] at h
    have h' : some (search Freq.toNat) = some c := h
    injection h' with h'
    exact ⟨by omega, hd, h'.symm⟩
  · rw [set_pos_miss (by omega) hd] at h
    exact Option.noConfusion h

/-! ### The claims -/

/-- C1: for every positive target frequency for which `set` succeeds, the
chosen configuration is itself one of the candidates generated by the
search, its normalized error score is minimal over all candidates (one per
non-excluded clock source passing the shift and reload-count checks), and
on equal minimal error the candidate from the lowest clock-source index is
kept, because the best-so-far is replaced only on strict `<` improvement. -/
theorem set_minimizes_error (st Freq : Int) (hF : 0 < Freq) (b : Cand)
    (hb : (set st Freq).applied = some b) :
    evalPll Freq.toNat b.pll = some b ∧
      ∀ p, p < 4 → ∀ c, evalPll Freq.toNat p = some c →
        b.dif ≤ c.dif ∧ (c.dif = b.dif → b.pll ≤ p) := by
  obtain ⟨-, hd, rfl⟩ := applied_inv hb
  exact ⟨(search_self hd).2,
    fun p hp c hc => ⟨search_min p hp hc, search_tie p hp hc⟩⟩

/-- Witness for C1 at `set 0 1000000`: the winner (pll 0, shift 0,
count 16, error 0) ties with the pll-2 candidate (count 64, error 0) and
the lower index is kept. -/
theorem set_minimizes_error_witness :
    (⟨0, 0, 16, 0⟩ : Cand).dif ≤ (⟨2, 0, 64, 0⟩ : Cand).dif ∧
      ((⟨2, 0, 64, 0⟩ : Cand).dif = (⟨0, 0, 16, 0⟩ : Cand).dif →
        (⟨0, 0, 16, 0⟩ : Cand).pll ≤ 2) :=
  (set_minimizes_error 0 1000000 (by decide) ⟨0, 0, 16, 0⟩ (by decide)).2
    2 (by decide) ⟨2, 0, 64, 0⟩ (by decide)

/-- C2: for positive target frequency, `set` returns the sentinel `-1`
exactly when no non-excluded clock source yields both a prescaler shift
`≤ 14` and a reload count in `[4, 1023]`; and on the sentinel the stored
frequency is unchanged (so a later `read` is unchanged) and no
configuration is applied. -/
theorem set_sentinel_iff_no_candidate (st Freq : Int) (hF : 0 < Freq) :
    ((set st Freq).ret = -1 ↔
      ∀ p, p < 4 → p ≠ 1 →
        ¬(lgOf Freq.toNat p ≤ 14 ∧
          4 ≤ cntOf Freq.toNat p ∧ cntOf Freq.toNat p ≤ 1023)) ∧
    ((set st Freq).ret = -1 →
      (set st Freq).val = st ∧ (set st Freq).applied = none ∧
        read (set st Freq).val = read st) := by
  by_cases hd : (search Freq.toNat).dif < INITDIF
  · rw [set_pos_hit hF hd]
    have hne : ((actualOf (search Freq.toNat) : Nat) : Int) ≠ -1 := by
      have := Int.natCast_nonneg (actualOf (search Freq.toNat))
      omega
    refine ⟨⟨fun h => absurd h hne, fun hall => ?_⟩, fun h => absurd h hne⟩
    exfalso
    obtain ⟨hp4, hself⟩ := search_self hd
    rcases evalPll_eq_some_iff.mp hself with ⟨h1, h2, h3, h4, -⟩
    exact hall _ hp4 h1 ⟨h2, h3, h4⟩
  · rw [set_pos_miss hF hd]
    refine ⟨⟨fun _ p hp hp1 hcond => ?_, fun _ => rfl⟩, fun _ => ⟨rfl, rfl, rfl⟩⟩
    obtain ⟨h2, h3, h4⟩ := hcond
    have hc : evalPll Freq.toNat p =
        some ⟨p, lgOf Freq.toNat p, cntOf Freq.toNat p, difOf Freq.toNat p⟩ :=
      evalPll_eq_some_iff.mpr ⟨hp1, h2, h3, h4, rfl⟩
    exact hd (search_found p hp hc)

/-- Witness for C2 at `set 5 50000000` (a target far above the achievable
ceiling): every clock source fails the reload-count check, the sentinel is
returned, and the stored value stays `5`. -/
theorem set_sentinel_iff_no_candidate_witness :
    (set 5 50000000).ret = -1 ∧ (set 5 50000000).val = 5 ∧
      (set 5 50000000).applied = none := by
  have h := set_sentinel_iff_no_candidate 5 50000000 (by decide)
  have hr : (set 5 50000000).ret = -1 := h.1.mpr (by decide)
  exact ⟨hr, (h.2 hr).1, (h.2 hr).2.1⟩

/-- C3: after every successful `set` with positive argument, the returned
value is the round-half-up actual frequency
`((F_CPU·CKM[svPLL]·2)/((1<<svLG)·svCNT)+1)/2` of the winning
configuration, and a subsequent `read` returns exactly that value. -/
theorem set_returns_rounded_actual (st Freq : Int) (hF : 0 < Freq)
    (h : (set st Freq).ret ≠ -1) :
    (set st Freq).ret =
      ((F_CPU * CKM.getD (search Freq.toNat).pll 0 * 2 /
        (2 ^ (search Freq.toNat).lg * (search Freq.toNat).cnt) + 1) / 2 : Nat) ∧
    read (set st Freq).val = (set st Freq).ret := by
  by_cases hd : (search Freq.toNat).dif < INITDIF
  · rw [set_pos_hit hF hd]
    exact ⟨rfl, rfl⟩
  · rw [set_pos_miss hF hd] at h
    exact absurd rfl h

/-- Witness for C3 at `set 0 1000000`: the returned value is the winning
configuration's rounded actual frequency and `read` round-trips it. -/
theorem set_returns_rounded_actual_witness :
    (set 0 1000000).ret =
      ((F_CPU * CKM.getD (search (1000000 : Int).toNat).pll 0 * 2 /
        (2 ^ (search (1000000 : Int).toNat).lg *
          (search (1000000 : Int).toNat).cnt) + 1) / 2 : Nat) ∧
    read (set 0 1000000).val = (set 0 1000000).ret :=
  set_returns_rounded_actual 0 1000000 (by decide) (by decide)

/-- C4: for a non-excluded clock source whose shift passed the range
check, the reload count is `((CK*2/PS/f)+1)/2` with truncating division,
and the source contributes a candidate exactly when that count lies in
`[4, 1023]` (so 4 and 1023 are accepted while 3 and 1024 are rejected);
any produced candidate records exactly that count. -/
theorem count_range_gate (f p : Nat) (hf : 0 < f) (hp : p < 4) (hp1 : p ≠ 1)
    (hlg : lgOf f p ≤ 14) :
    cntOf f p = (CKof p * 2 / PSof f p / f + 1) / 2 ∧
    ((evalPll f p).isSome ↔ 4 ≤ cntOf f p ∧ cntOf f p ≤ 1023) ∧
    ∀ c, evalPll f p = some c → c.cnt = cntOf f p := by
  refine ⟨rfl, ?_, ?_⟩
  · rw [evalPll_isSome_iff]
    exact ⟨fun h => ⟨h.2.2.1, h.2.2.2⟩, fun h => ⟨hp1, hlg, h.1, h.2⟩⟩
  · intro c hc
    rcases evalPll_eq_some_iff.mp hc with ⟨-, -, -, -, rfl⟩
    rfl

/-- Witness for C4 at `f = 1000000`, clock source 0: the count formula
evaluates to 16, inside the accepted range. -/
theorem count_range_gate_witness :
    cntOf 1000000 0 = (CKof 0 * 2 / PSof 1000000 0 / 1000000 + 1) / 2 ∧
    ((evalPll 1000000 0).isSome ↔
      4 ≤ cntOf 1000000 0 ∧ cntOf 1000000 0 ≤ 1023) := by
  have h := count_range_gate 1000000 0 (by decide) (by decide) (by decide)
    (by decide)
  exact ⟨h.1, h.2.1⟩

/-- C5: the prescaler shift is `0` when the divisor estimate `CV` is `0`
and otherwise the halving-loop count plus one, which equals
`ceil(log2(CV+1))`; for a non-excluded clock source, a shift above 14
rejects the source, while with a shift of at most 14 the source is kept
exactly when the count check passes. -/
theorem shift_clog_gate (f p : Nat) (hf : 0 < f) (hp : p < 4) (hp1 : p ≠ 1) :
    lgOf f p = Nat.clog 2 (CVof f p + 1) ∧
    (14 < lgOf f p → evalPll f p = none) ∧
    (lgOf f p ≤ 14 →
      ((evalPll f p).isSome ↔ 4 ≤ cntOf f p ∧ cntOf f p ≤ 1023)) := by
  refine ⟨lgFn_eq_clog (CVof f p), ?_, ?_⟩
  · intro h
    unfold evalPll
    rw [if_pos (Or.inr h)]
  · intro hlg
    rw [evalPll_isSome_iff]
    exact ⟨fun h => ⟨h.2.2.1, h.2.2.2⟩, fun h => ⟨hp1, hlg, h.1, h.2⟩⟩

/-- Witness for C5 at `f = 1`, clock source 0: `CV = 15625`, the loop
yields shift 14 (`= ceil(log2 15626)`), which is still accepted. -/
theorem shift_clog_gate_witness :
    lgOf 1 0 = Nat.clog 2 (CVof 1 0 + 1) ∧
    (14 < lgOf 1 0 → evalPll 1 0 = none) ∧
    (lgOf 1 0 ≤ 14 →
      ((evalPll 1 0).isSome ↔ 4 ≤ cntOf 1 0 ∧ cntOf 1 0 ≤ 1023)) :=
  shift_clog_gate 1 0 (by decide) (by decide) (by decide)

/-- C6: the error score stored with every candidate equals
`|CK − PS·cnt·f| / m` in integer arithmetic — the full-width subtraction
is performed first and the division by the multiplier `m` afterwards
(truncating division commutes with the final absolute value). -/
theorem error_score_formula (f p : Nat) (c : Cand) (h : evalPll f p = some c) :
    c.dif = ((CKof p : Int) -
      (PSof f p : Int) * (c.cnt : Int) * (f : Int)).natAbs / CKM.getD p 0 := by
  rcases evalPll_eq_some_iff.mp h with ⟨-, -, -, -, rfl⟩
  show difOf f p = _
  unfold difOf
  rw [Int.natAbs_tdiv]
  rfl

/-- Witness for C6 at `f = 1050000`, clock source 2 (the frequency noted
in the source as having broken the reordered computation): the stored
error 12500 equals `|64000000 − 1·61·1050000| / 4`. -/
theorem error_score_formula_witness :
    (⟨2, 0, 61, 12500⟩ : Cand).dif =
      ((CKof 2 : Int) - (PSof 1050000 2 : Int) *
        ((⟨2, 0, 61, 12500⟩ : Cand).cnt : Int) * (1050000 : Int)).natAbs /
        CKM.getD 2 0 :=
  error_score_formula 1050000 2 ⟨2, 0, 61, 12500⟩ (by decide)

/-- C7: the excluded clock-source index 1 (the 96 MHz PLL multiplier) is
never the index of a configuration applied to the hardware, nor of any
successful search result. -/
theorem excluded_pll_never_chosen (st Freq : Int) (f : Nat) (c : Cand)
    (hc : (set st Freq).applied = some c)
    (hs : (search f).dif < INITDIF) :
    c.pll ≠ 1 ∧ (search f).pll ≠ 1 := by
  have hno : ∀ g : Nat, (search g).dif < INITDIF → (search g).pll ≠ 1 := by
    intro g hg h1
    have h2 := (search_self hg).2
    rw [h1, evalPll_exclude] at h2
    exact Option.noConfusion h2
  obtain ⟨-, hd, rfl⟩ := applied_inv hc
  exact ⟨hno _ hd, hno f hs⟩

/-- Witness for C7 at `set 0 1000000` and `search 1000000`: the chosen
index is 0, not the excluded index 1. -/
theorem excluded_pll_never_chosen_witness :
    (⟨0, 0, 16, 0⟩ : Cand).pll ≠ 1 ∧ (search 1000000).pll ≠ 1 :=
  excluded_pll_never_chosen 0 1000000 1000000 ⟨0, 0, 16, 0⟩
    (by decide) (by decide)

/-- C8: `set st 0` always succeeds: it stores 0, returns 0, and a
subsequent `read` returns 0, regardless of the prior state. -/
theorem set_zero_disables (st : Int) :
    (set st 0).ret = 0 ∧ (set st 0).val = 0 ∧ read (set st 0).val = 0 := by
  rw [set_zero]
  exact ⟨rfl, rfl, rfl⟩

/-- Witness for C8 with prior state 12345. -/
theorem set_zero_disables_witness :
    (set 12345 0).ret = 0 ∧ (set 12345 0).val = 0 ∧
      read (set 12345 0).val = 0 :=
  set_zero_disables 12345

/-- C9: for every negative argument, `set` performs no state change and
applies nothing: it returns the stored frequency and a subsequent `read`
returns exactly what it would have returned before the call. -/
theorem set_negative_is_query (st Freq : Int) (h : Freq < 0) :
    (set st Freq).ret = st ∧ (set st Freq).val = st ∧
      (set st Freq).applied = none ∧ read (set st Freq).val = read st := by
  rw [set_neg h]
  exact ⟨rfl, rfl, rfl, rfl⟩

/-- Witness for C9 at `set 7 (-1)`. -/
theorem set_negative_is_query_witness :
    (set 7 (-1)).ret = 7 ∧ (set 7 (-1)).val = 7 ∧
      (set 7 (-1)).applied = none ∧ read (set 7 (-1)).val = read 7 :=
  set_negative_is_query 7 (-1) (by decide)

/-- C10: the stored frequency starts at 0 and every `set` call preserves
its non-negativity, so `read` never returns the sentinel `-1` and the
sentinel is distinguishable from every reachable stored value. -/
theorem state_nonneg_invariant (st Freq : Int) (h : 0 ≤ st) :
    0 ≤ initVal ∧ 0 ≤ (set st Freq).val ∧
      read (set st Freq).val ≠ -1 ∧ read st ≠ -1 := by
  have hval : 0 ≤ (set st Freq).val := by
    by_cases h1 : Freq < 0
    · rw [set_neg h1]
      exact h
    by_cases h2 : Freq = 0
    · subst h2
      rw [set_zero]
    by_cases hd : (search Freq.toNat).dif < INITDIF
    · rw [set_pos_hit (by omega) hd]
      exact Int.natCast_nonneg _
    · rw [set_pos_miss (by omega) hd]
      exact h
  refine ⟨by norm_num [initVal], hval, ?_, ?_⟩
  · show (set st Freq).val ≠ -1
    omega
  · show st ≠ -1
    omega

/-- Witness for C10 at state 0, frequency 123. -/
theorem state_nonneg_invariant_witness :
    0 ≤ initVal ∧ 0 ≤ (set 0 123).val ∧
      read (set 0 123).val ≠ -1 ∧ read (0 : Int) ≠ -1 :=
  state_nonneg_invariant 0 123 (by decide)

end FrequencyGenerator
